import Mathlib

/-!
Verification of the folder comparison tool in `src/foldercompare/cli.py`.

Python text values (paths, digests, manifest lines) are modelled as `List Char`.
Python dicts are modelled as association lists together with the operations
`dictGet` (`d.get(k, None)`), `dictInsert` (`d[k] = v`) and `dictOfPairs`
(`dict(pairs)`).  Fallible operations return `Option` or `Except`.
-/

namespace FolderCompare

/-- Python text is modelled as a list of characters. -/
abbrev Str := List Char

/-- Lookup in a Python dict modelled as an association list: `d.get(k, None)`. -/
def dictGet {V : Type} (m : List (Str × V)) (k : Str) : Option V :=
  (m.find? (fun kv => kv.1 == k)).map Prod.snd

/-- Assignment `d[k] = v` on a Python dict: overwrite the value in place when the
    key is present, append a fresh entry otherwise. -/
def dictInsert {V : Type} (m : List (Str × V)) (k : Str) (v : V) : List (Str × V) :=
  if m.any (fun kv => kv.1 == k) then
    m.map (fun kv => if kv.1 == k then (k, v) else kv)
  else m ++ [(k, v)]

/-- The dict built from a sequence of key-value pairs, as `dict(...)` or a dict
    comprehension builds it: a later occurrence of a key overwrites an earlier one. -/
def dictOfPairs {V : Type} (l : List (Str × V)) : List (Str × V) :=
  l.foldl (fun m kv => dictInsert m kv.1 kv.2) []

lemma dictGet_isSome_iff {V : Type} (m : List (Str × V)) (k : Str) :
    (dictGet m k).isSome ↔ k ∈ m.map Prod.fst := by
  have h1 : (dictGet m k).isSome = (m.find? (fun kv => kv.1 == k)).isSome := by
    unfold dictGet
    cases m.find? (fun kv => kv.1 == k) <;> rfl
  rw [h1, List.find?_isSome]
  constructor
  · rintro ⟨x, hx, e⟩
    exact List.mem_map.mpr ⟨x, hx, by simpa using e⟩
  · intro hk
    obtain ⟨x, hx, e⟩ := List.mem_map.mp hk
    exact ⟨x, hx, by simpa using e⟩

lemma dictGet_eq_none_iff {V : Type} (m : List (Str × V)) (k : Str) :
    dictGet m k = none ↔ k ∉ m.map Prod.fst := by
  rw [← dictGet_isSome_iff, Option.not_isSome_iff_eq_none]

lemma mem_map_fst_filter_map {β : Type} (u : List Str) (h : Str → β)
    (p : Str × β → Bool) (k : Str) :
    k ∈ (((u.map (fun x => (x, h x))).filter p).map Prod.fst) ↔
      k ∈ u ∧ p (k, h k) = true := by
  rw [List.filter_map, List.map_map]
  have hid : (Prod.fst ∘ fun x : Str => (x, h x)) = id := rfl
  rw [hid, List.map_id, List.mem_filter]
  exact Iff.rfl

/-- Function `compare_hashes` from `cli.py` lines 75 to 84: build `combined` over the
    union of both key sets, pairing each key with the two optional digests, then select
    `bad` (both present, digests differ), `a_missing` (absent from `a`) and `b_missing`
    (absent from `b`).  Python set union is modelled as a deduplicated list. -/
def compare_hashes (a b : List (Str × Str)) : List Str × List Str × List Str :=
  let combined := ((a.map Prod.fst ++ b.map Prod.fst).dedup).map
    (fun k => (k, (dictGet a k, dictGet b k)))
  let bad := (combined.filter
    (fun kv => !(kv.2.1 == kv.2.2) && !(kv.2.1 == none) && !(kv.2.2 == none))).map Prod.fst
  let a_missing := (combined.filter (fun kv => kv.2.1 == none)).map Prod.fst
  let b_missing := (combined.filter (fun kv => kv.2.2 == none)).map Prod.fst
  (bad, a_missing, b_missing)

/-- Modelled from the spec: the `matched` set, keys present in both mappings with equal
    digests.  The code never materializes it; the spec uses it only to state the
    partition property. -/
def matchedKeys (a b : List (Str × Str)) : List Str :=
  ((a.map Prod.fst ++ b.map Prod.fst).dedup).filter
    (fun k => !(dictGet a k == none) && dictGet a k == dictGet b k)

lemma mem_bad_iff (a b : List (Str × Str)) (k : Str) :
    k ∈ (compare_hashes a b).1 ↔
      (k ∈ a.map Prod.fst ∨ k ∈ b.map Prod.fst) ∧
        dictGet a k ≠ dictGet b k ∧ dictGet a k ≠ none ∧ dictGet b k ≠ none := by
  show k ∈ ((((a.map Prod.fst ++ b.map Prod.fst).dedup).map
      (fun x => (x, (dictGet a x, dictGet b x)))).filter _).map Prod.fst ↔ _
  rw [mem_map_fst_filter_map, List.mem_dedup, List.mem_append]
  simp
  tauto

lemma mem_a_missing_iff (a b : List (Str × Str)) (k : Str) :
    k ∈ (compare_hashes a b).2.1 ↔
      (k ∈ a.map Prod.fst ∨ k ∈ b.map Prod.fst) ∧ dictGet a k = none := by
  show k ∈ ((((a.map Prod.fst ++ b.map Prod.fst).dedup).map
      (fun x => (x, (dictGet a x, dictGet b x)))).filter _).map Prod.fst ↔ _
  rw [mem_map_fst_filter_map, List.mem_dedup, List.mem_append]
  simp

lemma mem_b_missing_iff (a b : List (Str × Str)) (k : Str) :
    k ∈ (compare_hashes a b).2.2 ↔
      (k ∈ a.map Prod.fst ∨ k ∈ b.map Prod.fst) ∧ dictGet b k = none := by
  show k ∈ ((((a.map Prod.fst ++ b.map Prod.fst).dedup).map
      (fun x => (x, (dictGet a x, dictGet b x)))).filter _).map Prod.fst ↔ _
  rw [mem_map_fst_filter_map, List.mem_dedup, List.mem_append]
  simp

lemma mem_matchedKeys_iff (a b : List (Str × Str)) (k : Str) :
    k ∈ matchedKeys a b ↔
      (k ∈ a.map Prod.fst ∨ k ∈ b.map Prod.fst) ∧
        dictGet a k ≠ none ∧ dictGet a k = dictGet b k := by
  unfold matchedKeys
  rw [List.mem_filter, List.mem_dedup, List.mem_append]
  simp

/-- C1.  The three sets computed by `compare_hashes`, together with the matched keys,
    are pairwise disjoint and cover exactly the union of the two key sets. -/
theorem c1_partition (a b : List (Str × Str)) (k : Str) :
    ((k ∈ (compare_hashes a b).1 ∨ k ∈ (compare_hashes a b).2.1 ∨
        k ∈ (compare_hashes a b).2.2 ∨ k ∈ matchedKeys a b) ↔
      (k ∈ a.map Prod.fst ∨ k ∈ b.map Prod.fst)) ∧
    ¬ (k ∈ (compare_hashes a b).1 ∧ k ∈ (compare_hashes a b).2.1) ∧
    ¬ (k ∈ (compare_hashes a b).1 ∧ k ∈ (compare_hashes a b).2.2) ∧
    ¬ (k ∈ (compare_hashes a b).1 ∧ k ∈ matchedKeys a b) ∧
    ¬ (k ∈ (compare_hashes a b).2.1 ∧ k ∈ (compare_hashes a b).2.2) ∧
    ¬ (k ∈ (compare_hashes a b).2.1 ∧ k ∈ matchedKeys a b) ∧
    ¬ (k ∈ (compare_hashes a b).2.2 ∧ k ∈ matchedKeys a b) := by
  have hu : (k ∈ a.map Prod.fst ∨ k ∈ b.map Prod.fst) →
      dictGet a k ≠ none ∨ dictGet b k ≠ none := by
    rintro (h | h)
    · exact Or.inl (fun hn => ((dictGet_eq_none_iff a k).mp hn) h)
    · exact Or.inr (fun hn => ((dictGet_eq_none_iff b k).mp hn) h)
  rw [mem_bad_iff, mem_a_missing_iff, mem_b_missing_iff, mem_matchedKeys_iff]
  revert hu
  rcases hxo : dictGet a k with _ | x <;> rcases hyo : dictGet b k with _ | y <;> intro hu
  · have hU : ¬ (k ∈ a.map Prod.fst ∨ k ∈ b.map Prod.fst) := by
      intro h
      rcases hu h with hc | hc <;> exact hc rfl
    simp [hU]
    exact ⟨fun x hx => hU (Or.inl (List.mem_map.mpr ⟨(k, x), hx, rfl⟩)),
      fun x hx => hU (Or.inr (List.mem_map.mpr ⟨(k, x), hx, rfl⟩))⟩
  · simp
  · simp
  · by_cases hxy : x = y <;> simp [hxy]

/-- Path segments as `posixpath.commonpath` computes them: split on the separator
    and drop empty components and single dots. -/
def pathSegs (p : Str) : List Str :=
  (p.splitOn '/').filter (fun s => !(s == []) && !(s == ['.']))

/-- Longest common prefix of two segment lists. -/
def lcpSegs : List Str → List Str → List Str
  | x :: xs, y :: ys => if x = y then x :: lcpSegs xs ys else []
  | _, _ => []

/-- Modelled from `posixpath.commonpath` (an external collaborator of `cli.py`): the
    longest common segment-wise prefix of the given paths, with a leading separator
    when the paths are absolute.  Python raises `ValueError` on an empty sequence and
    on a mix of absolute and relative paths; both failures are modelled as `none`. -/
def commonpath : List Str → Option Str
  | [] => none
  | p :: ps =>
    let isabs := p.head? == some '/'
    if ps.all (fun q => (q.head? == some '/') == isabs) then
      let segs := ps.foldl (fun acc q => lcpSegs acc (pathSegs q)) (pathSegs p)
      some ((if isabs then ['/'] else []) ++ List.intercalate ['/'] segs)
    else none

/-- Function `normalize_paths` from `cli.py` lines 68 to 72: compute the common prefix
    of the keys, then strip `len(prefix) + 1` leading characters from every key.  The
    failure of `os.path.commonpath` on an empty key set propagates. -/
def normalize_paths (input : List (Str × Str)) : Option (Str × List (Str × Str)) :=
  match commonpath (input.map Prod.fst) with
  | none => none
  | some pfx =>
    let prefix_len := pfx.length + 1
    some (pfx, dictOfPairs (input.map (fun kv => (kv.1.drop prefix_len, kv.2))))

/-- Modelled from `posixpath.join` (an external collaborator of `cli.py`), restricted
    to two arguments as `main` uses it: an absolute second argument replaces the
    first; otherwise a separator is inserted unless one is already present. -/
def osJoin (a c : Str) : Str :=
  if c.head? = some '/' then c
  else if a = [] ∨ a.getLast? = some '/' then a ++ c
  else a ++ '/' :: c

lemma mem_dictInsert {V : Type} (m : List (Str × V)) (k : Str) (v : V)
    (kv : Str × V) (h : kv ∈ dictInsert m k v) : kv ∈ m ∨ kv.1 = k := by
  unfold dictInsert at h
  split at h
  · obtain ⟨x, hx, e⟩ := List.mem_map.mp h
    by_cases hxk : (x.1 == k) = true
    · rw [if_pos hxk] at e
      right
      rw [← e]
    · rw [if_neg hxk] at e
      left
      rw [← e]
      exact hx
  · rcases List.mem_append.mp h with hm | hm
    · exact Or.inl hm
    · right
      rw [List.mem_singleton.mp hm]

lemma mem_foldl_dictInsert_key {V : Type} (l : List (Str × V)) :
    ∀ (st : List (Str × V)) (kv : Str × V),
      kv ∈ l.foldl (fun m x => dictInsert m x.1 x.2) st →
        kv ∈ st ∨ kv.1 ∈ l.map Prod.fst := by
  induction l with
  | nil => intro st kv h; exact Or.inl h
  | cons x l ih =>
    intro st kv h
    rcases ih (dictInsert st x.1 x.2) kv h with hm | hm
    · rcases mem_dictInsert st x.1 x.2 kv hm with hs | hk
      · exact Or.inl hs
      · exact Or.inr (by rw [List.map_cons, hk]; exact List.mem_cons_self _ _)
    · exact Or.inr (by rw [List.map_cons]; exact List.mem_cons_of_mem _ hm)

lemma mem_dictOfPairs_key {V : Type} (l : List (Str × V)) (kv : Str × V)
    (h : kv ∈ dictOfPairs l) : kv.1 ∈ l.map Prod.fst := by
  rcases mem_foldl_dictInsert_key l [] kv h with hm | hm
  · cases hm
  · exact hm

/-- C2 counterexample.  On the single-key mapping with key `/a/b/f.txt`,
    `normalize_paths` returns the whole file path as the prefix, not the containing
    directory `/a/b`, and the single normalized key is the empty string, not
    `f.txt`. -/
theorem c2_counterexample :
    normalize_paths [(("/a/b/f.txt").toList, ("d1").toList)] =
      some (("/a/b/f.txt").toList, [(([] : Str), ("d1").toList)]) ∧
    ("/a/b/f.txt").toList ≠ ("/a/b").toList ∧ ([] : Str) ≠ ("f.txt").toList := by
  refine ⟨by decide, by decide, by decide⟩

/-- C2 amended.  For a single-key mapping whose key is an absolute path in normal form
    (re-joining its segments reproduces it), the prefix returned by `normalize_paths`
    is the key itself and the single normalized key is the empty string. -/
theorem c2_amended (k d : Str)
    (h : ('/' :: List.intercalate ['/'] (pathSegs k)) = k) :
    normalize_paths [(k, d)] = some (k, [(([] : Str), d)]) := by
  have hhead : k.head? = some '/' := by rw [← h]; rfl
  have hcp : commonpath [k] = some k := by
    simp only [commonpath, List.all_nil, if_true, List.foldl_nil, hhead]
    simp [h]
  have hdrop : k.drop (k.length + 1) = [] :=
    List.drop_eq_nil_of_le (Nat.le_succ _)
  unfold normalize_paths
  rw [List.map_cons, List.map_nil, hcp]
  simp only [List.map_cons, List.map_nil, hdrop]
  rfl

theorem c2_amended_witness :
    normalize_paths [(("/x/y").toList, ("d").toList)] =
      some (("/x/y").toList, [(([] : Str), ("d").toList)]) :=
  c2_amended (("/x/y").toList) (("d").toList) (by decide)

/-- C3 counterexample.  On the mapping with keys `/a/x` and `/b/y` the common prefix
    is the root `/`, `prefix_len` is 2, and the normalized keys are `/x` and `/y`:
    they begin with a separator, and rejoining the prefix with `/x` yields `/x`,
    which was not a key of the input mapping. -/
theorem c3_counterexample :
    normalize_paths [(("/a/x").toList, ("d1").toList), (("/b/y").toList, ("d2").toList)] =
      some ((['/'] : Str),
        [(("/x").toList, ("d1").toList), (("/y").toList, ("d2").toList)]) ∧
    (("/x").toList).head? = some '/' ∧
    osJoin ['/'] (("/x").toList) ∉
      List.map Prod.fst [(("/a/x").toList, ("d1").toList), (("/b/y").toList, ("d2").toList)] := by
  refine ⟨by decide, by decide, by decide⟩

/-- C3 amended.  When the computed prefix is nonempty, does not end with a separator,
    and every key extends it by a separator and a nonempty remainder that does not
    itself begin with a separator, then every normalized key is that nonempty
    remainder, free of a leading separator, and rejoining the prefix with it
    reproduces an original absolute key of the input mapping. -/
theorem c3_amended (input : List (Str × Str)) (pfx : Str) (m : List (Str × Str))
    (hnp : normalize_paths input = some (pfx, m))
    (hpne : pfx ≠ [])
    (hplast : pfx.getLast? ≠ some '/')
    (hkeys : ∀ kv ∈ input, kv.1.take (pfx.length + 1) = pfx ++ ['/'] ∧
      pfx.length + 2 ≤ kv.1.length ∧ (kv.1.drop (pfx.length + 1)).head? ≠ some '/') :
    ∀ kv ∈ m, kv.1 ≠ [] ∧ kv.1.head? ≠ some '/' ∧
      osJoin pfx kv.1 ∈ input.map Prod.fst := by
  have hm : m = dictOfPairs (input.map
      (fun kv => (kv.1.drop (pfx.length + 1), kv.2))) := by
    unfold normalize_paths at hnp
    rcases hc : commonpath (input.map Prod.fst) with _ | q
    · rw [hc] at hnp; cases hnp
    · rw [hc] at hnp
      simp only [Option.some.injEq, Prod.mk.injEq] at hnp
      rw [← hnp.1, ← hnp.2]
  intro kv hkv
  have hk1 : kv.1 ∈ (input.map (fun kv => (kv.1.drop (pfx.length + 1), kv.2))).map
      Prod.fst := mem_dictOfPairs_key _ kv (hm ▸ hkv)
  rw [List.map_map] at hk1
  obtain ⟨kv0, hkv0, he⟩ := List.mem_map.mp hk1
  have hprops := hkeys kv0 hkv0
  have hrest : kv.1 = kv0.1.drop (pfx.length + 1) := by rw [← he]; rfl
  have hlen : kv.1.length = kv0.1.length - (pfx.length + 1) := by
    rw [hrest, List.length_drop]
  have hne : kv.1 ≠ [] := by
    intro hnil
    rw [hnil] at hlen
    have h2 := hprops.2.1
    simp at hlen
    omega
  have hhd : kv.1.head? ≠ some '/' := by rw [hrest]; exact hprops.2.2
  refine ⟨hne, hhd, ?_⟩
  have hjoin : osJoin pfx kv.1 = kv0.1 := by
    unfold osJoin
    rw [if_neg hhd, if_neg (by rintro (h | h); exact hpne h; exact hplast h)]
    have hsplit : kv0.1.take (pfx.length + 1) ++ kv0.1.drop (pfx.length + 1) = kv0.1 :=
      List.take_append_drop _ _
    rw [← hsplit, hprops.1, ← hrest, List.append_assoc]
    rfl
  rw [hjoin]
  exact List.mem_map.mpr ⟨kv0, hkv0, rfl⟩

theorem c3_amended_witness :
    ("a").toList ≠ ([] : Str) ∧ (("a").toList).head? ≠ some '/' ∧
      osJoin (("/d").toList) (("a").toList) ∈
        List.map Prod.fst
          [(("/d/a").toList, ("h1").toList), (("/d/sub/b").toList, ("h2").toList)] :=
  c3_amended
    [(("/d/a").toList, ("h1").toList), (("/d/sub/b").toList, ("h2").toList)]
    (("/d").toList)
    [(("a").toList, ("h1").toList), (("sub/b").toList, ("h2").toList)]
    (by decide) (by decide) (by decide) (by decide)
    ((("a").toList, ("h1").toList)) (by decide)

lemma dictGet_cons_pos {V : Type} (x : Str × V) (m : List (Str × V)) (k : Str)
    (h : (x.1 == k) = true) : dictGet (x :: m) k = some x.2 := by
  unfold dictGet
  rw [@List.find?_cons_of_pos _ (fun kv => kv.1 == k) x m h]
  rfl

lemma dictGet_cons_neg {V : Type} (x : Str × V) (m : List (Str × V)) (k : Str)
    (h : (x.1 == k) = false) : dictGet (x :: m) k = dictGet m k := by
  unfold dictGet
  rw [@List.find?_cons_of_neg _ (fun kv => kv.1 == k) x m
    (by show (x.1 == k) ≠ true; rw [h]; exact Bool.false_ne_true)]

lemma dictGet_map_update_self {V : Type} (m : List (Str × V)) (k : Str) (v : V)
    (hany : (m.any fun kv => kv.1 == k) = true) :
    dictGet (m.map (fun kv => if kv.1 == k then (k, v) else kv)) k = some v := by
  induction m with
  | nil => cases hany
  | cons x m ih =>
    rw [List.any_cons] at hany
    rw [List.map_cons]
    by_cases hx : (x.1 == k) = true
    · rw [if_pos hx]
      exact dictGet_cons_pos _ _ _ (by simp)
    · rw [if_neg hx]
      rw [Bool.not_eq_true] at hx
      rw [hx, Bool.false_or] at hany
      rw [dictGet_cons_neg _ _ _ hx]
      exact ih hany

lemma dictGet_append_single_self {V : Type} (m : List (Str × V)) (k : Str) (v : V)
    (hnone : (m.any fun kv => kv.1 == k) = false) :
    dictGet (m ++ [(k, v)]) k = some v := by
  induction m with
  | nil => exact dictGet_cons_pos _ _ _ (by simp)
  | cons x m ih =>
    rw [List.any_cons, Bool.or_eq_false_iff] at hnone
    rw [List.cons_append, dictGet_cons_neg _ _ _ hnone.1]
    exact ih hnone.2

lemma dictGet_dictInsert_self {V : Type} (m : List (Str × V)) (k : Str) (v : V) :
    dictGet (dictInsert m k v) k = some v := by
  unfold dictInsert
  split
  · exact dictGet_map_update_self m k v (by assumption)
  · next h =>
    rw [Bool.not_eq_true] at h
    exact dictGet_append_single_self m k v h

lemma dictGet_map_update_ne {V : Type} (m : List (Str × V)) (k : Str) (v : V)
    (q : Str) (hq : q ≠ k) :
    dictGet (m.map (fun kv => if kv.1 == k then (k, v) else kv)) q = dictGet m q := by
  induction m with
  | nil => rfl
  | cons x m ih =>
    rw [List.map_cons]
    by_cases hx : (x.1 == k) = true
    · rw [if_pos hx]
      have hxk : x.1 = k := beq_iff_eq.mp hx
      have hkq : ((k, v).1 == q) = false := beq_eq_false_iff_ne.mpr (fun h => hq h.symm)
      have hxq : (x.1 == q) = false :=
        beq_eq_false_iff_ne.mpr (fun h => hq (by rw [← h, hxk]))
      rw [dictGet_cons_neg _ _ _ hkq, dictGet_cons_neg _ _ _ hxq]
      exact ih
    · rw [if_neg hx]
      by_cases hxq : (x.1 == q) = true
      · rw [dictGet_cons_pos _ _ _ hxq, dictGet_cons_pos _ _ _ hxq]
      · rw [Bool.not_eq_true] at hxq
        rw [dictGet_cons_neg _ _ _ hxq, dictGet_cons_neg _ _ _ hxq]
        exact ih

lemma dictGet_append_single_ne {V : Type} (m : List (Str × V)) (k : Str) (v : V)
    (q : Str) (hq : q ≠ k) : dictGet (m ++ [(k, v)]) q = dictGet m q := by
  induction m with
  | nil =>
    rw [List.nil_append]
    rw [dictGet_cons_neg _ _ _ (beq_eq_false_iff_ne.mpr (fun h => hq h.symm))]
  | cons x m ih =>
    rw [List.cons_append]
    by_cases hxq : (x.1 == q) = true
    · rw [dictGet_cons_pos _ _ _ hxq, dictGet_cons_pos _ _ _ hxq]
    · rw [Bool.not_eq_true] at hxq
      rw [dictGet_cons_neg _ _ _ hxq, dictGet_cons_neg _ _ _ hxq]
      exact ih

lemma dictGet_dictInsert_ne {V : Type} (m : List (Str × V)) (k : Str) (v : V)
    (q : Str) (hq : q ≠ k) : dictGet (dictInsert m k v) q = dictGet m q := by
  unfold dictInsert
  split
  · exact dictGet_map_update_ne m k v q hq
  · exact dictGet_append_single_ne m k v q hq

/-- The two sides of a run, the dict keys `a` and `b` used as `dir_id` in `amain`. -/
inductive Side
  | a
  | b
deriving DecidableEq

/-- The shared `output` structure of `amain`: one digest mapping per side. -/
structure Output where
  a : List (Str × Str)
  b : List (Str × Str)
deriving DecidableEq

/-- One loop iteration of `hash_file_worker` in `cli.py` lines 39 to 45: dequeue a
    work item, hash the file at its path, and insert the digest into the mapping of
    the side of the item while holding the output lock.  Hashing is deterministic,
    so the digest is a function `hashOf` of the path alone. -/
def processItem (hashOf : Str → Str) (o : Output) (it : Side × Str) : Output :=
  match it.1 with
  | Side.a => { o with a := dictInsert o.a it.2 (hashOf it.2) }
  | Side.b => { o with b := dictInsert o.b it.2 (hashOf it.2) }

/-- The aggregate effect of the worker pool in `amain`, lines 87 to 114: every
    enqueued work item is dequeued exactly once by exactly one worker, and `order`
    is the order in which the guarded inserts reach the shared output, an
    interleaving chosen by the scheduler and by the number of workers. -/
def runSchedule (hashOf : Str → Str) (order : List (Side × Str)) : Output :=
  order.foldl (processItem hashOf) ⟨[], []⟩

lemma foldl_processItem_get_a (hashOf : Str → Str) (l : List (Side × Str)) :
    ∀ (st : Output) (k : Str),
      dictGet (l.foldl (processItem hashOf) st).a k =
        if (Side.a, k) ∈ l then some (hashOf k) else dictGet st.a k := by
  induction l with
  | nil => intro st k; simp
  | cons it l ih =>
    intro st k
    rw [List.foldl_cons, ih]
    by_cases hmem : (Side.a, k) ∈ l
    · rw [if_pos hmem, if_pos (List.mem_cons_of_mem _ hmem)]
    · rw [if_neg hmem]
      by_cases hit : it = (Side.a, k)
      · subst hit
        rw [if_pos (List.mem_cons_self _ _)]
        show dictGet (dictInsert st.a k (hashOf k)) k = some (hashOf k)
        exact dictGet_dictInsert_self _ _ _
      · rw [if_neg (by
          rw [List.mem_cons]
          rintro (hc | hc)
          · exact hit hc.symm
          · exact hmem hc)]
        obtain ⟨s, p⟩ := it
        cases s
        · have hp : p ≠ k := fun hpk => hit (by rw [hpk])
          show dictGet (dictInsert st.a p (hashOf p)) k = dictGet st.a k
          exact dictGet_dictInsert_ne _ _ _ _ (fun hk => hp hk.symm)
        · rfl

lemma foldl_processItem_get_b (hashOf : Str → Str) (l : List (Side × Str)) :
    ∀ (st : Output) (k : Str),
      dictGet (l.foldl (processItem hashOf) st).b k =
        if (Side.b, k) ∈ l then some (hashOf k) else dictGet st.b k := by
  induction l with
  | nil => intro st k; simp
  | cons it l ih =>
    intro st k
    rw [List.foldl_cons, ih]
    by_cases hmem : (Side.b, k) ∈ l
    · rw [if_pos hmem, if_pos (List.mem_cons_of_mem _ hmem)]
    · rw [if_neg hmem]
      by_cases hit : it = (Side.b, k)
      · subst hit
        rw [if_pos (List.mem_cons_self _ _)]
        show dictGet (dictInsert st.b k (hashOf k)) k = some (hashOf k)
        exact dictGet_dictInsert_self _ _ _
      · rw [if_neg (by
          rw [List.mem_cons]
          rintro (hc | hc)
          · exact hit hc.symm
          · exact hmem hc)]
        obtain ⟨s, p⟩ := it
        cases s
        · rfl
        · have hp : p ≠ k := fun hpk => hit (by rw [hpk])
          show dictGet (dictInsert st.b p (hashOf p)) k = dictGet st.b k
          exact dictGet_dictInsert_ne _ _ _ _ (fun hk => hp hk.symm)

lemma runSchedule_get_a (hashOf : Str → Str) (order : List (Side × Str)) (k : Str) :
    dictGet (runSchedule hashOf order).a k =
      if (Side.a, k) ∈ order then some (hashOf k) else none := by
  rw [runSchedule, foldl_processItem_get_a]
  by_cases h : (Side.a, k) ∈ order <;> simp [h, dictGet]

lemma runSchedule_get_b (hashOf : Str → Str) (order : List (Side × Str)) (k : Str) :
    dictGet (runSchedule hashOf order).b k =
      if (Side.b, k) ∈ order then some (hashOf k) else none := by
  rw [runSchedule, foldl_processItem_get_b]
  by_cases h : (Side.b, k) ∈ order <;> simp [h, dictGet]

/-- C7.  The final digest mappings are a commutative merge keyed by path: any two
    orders in which the pool records the same set of work items produce extensionally
    equal mappings.  The pool size only selects which interleaving occurs, so the
    result is independent of the number of workers as well. -/
theorem c7_pool_commutative (hashOf : Str → Str) (o1 o2 : List (Side × Str))
    (h : o1.Perm o2) (k : Str) :
    dictGet (runSchedule hashOf o1).a k = dictGet (runSchedule hashOf o2).a k ∧
    dictGet (runSchedule hashOf o1).b k = dictGet (runSchedule hashOf o2).b k := by
  constructor
  · rw [runSchedule_get_a, runSchedule_get_a]
    by_cases hm : (Side.a, k) ∈ o1
    · rw [if_pos hm, if_pos (h.mem_iff.mp hm)]
    · rw [if_neg hm, if_neg (fun hc => hm (h.mem_iff.mpr hc))]
  · rw [runSchedule_get_b, runSchedule_get_b]
    by_cases hm : (Side.b, k) ∈ o1
    · rw [if_pos hm, if_pos (h.mem_iff.mp hm)]
    · rw [if_neg hm, if_neg (fun hc => hm (h.mem_iff.mpr hc))]

theorem c7_witness :
    (dictGet (runSchedule (fun p => p)
        [(Side.a, ("x").toList), (Side.b, ("y").toList)]).a (("x").toList) =
      dictGet (runSchedule (fun p => p)
        [(Side.b, ("y").toList), (Side.a, ("x").toList)]).a (("x").toList)) ∧
    (dictGet (runSchedule (fun p => p)
        [(Side.a, ("x").toList), (Side.b, ("y").toList)]).b (("x").toList) =
      dictGet (runSchedule (fun p => p)
        [(Side.b, ("y").toList), (Side.a, ("x").toList)]).b (("x").toList)) :=
  c7_pool_commutative (fun p => p)
    [(Side.a, ("x").toList), (Side.b, ("y").toList)]
    [(Side.b, ("y").toList), (Side.a, ("x").toList)]
    (by decide) (("x").toList)

/-- Failures that abort a run, named after the error taxonomy of the spec.  In the
    Python code they are a `ValueError` escaping `os.path.commonpath` and a
    `ValueError` raised by `dict` on a malformed manifest line. -/
inductive Err
  | normalizationError
  | manifestParseError
deriving DecidableEq

/-- Lines 157 to 179 of `main`: normalize both mappings, compare, report every
    difference while raising the `dirty` flag, and return 1 when `dirty` was set and
    the Python `None` (process exit status 0) otherwise.  A failure of
    `normalize_paths` propagates uncaught. -/
def compareExit (oa ob : List (Str × Str)) : Except Err Nat :=
  match normalize_paths oa, normalize_paths ob with
  | some (_, an), some (_, bn) =>
    let r := compare_hashes an bn
    let dirty := !r.1.isEmpty || !r.2.2.isEmpty || !r.2.1.isEmpty
    Except.ok (if dirty then 1 else 0)
  | _, _ => Except.error Err.normalizationError

/-- The digest-constructor names guaranteed by `hashlib` (external collaborator,
    modelled from the hashlib documentation): the algorithm names a user may
    meaningfully request. -/
def hashlibAlgorithms : List String :=
  ["md5", "sha1", "sha224", "sha256", "sha384", "sha512",
   "sha3_224", "sha3_256", "sha3_384", "sha3_512",
   "blake2b", "blake2s", "shake_128", "shake_256"]

/-- The attributes of the `hashlib` module (external collaborator, modelled from the
    hashlib documentation): besides the digest constructors, the module exposes
    helper functions, the two algorithm-name sets, and the module dunders.  On every
    name in this list `getattr(hashlib, name)` succeeds; only a name outside it
    raises `AttributeError`. -/
def hashlibAttributes : List String :=
  hashlibAlgorithms ++
    ["new", "pbkdf2_hmac", "scrypt", "file_digest",
     "algorithms_guaranteed", "algorithms_available",
     "__name__", "__doc__", "__package__", "__loader__", "__spec__", "__file__"]

/-- Lines 133 to 139 of `main`: `getattr(hashlib, name)` with the `AttributeError`
    handler substituting `hashlib.sha3_256` and logging a warning.  `getattr`
    succeeds on every attribute of the module, digest constructor or not, so only a
    name that is no attribute at all reaches the handler.  Returns the name of the
    attribute the run will use as its hash constructor and whether the warning
    fired. -/
def resolveHashFunc (name : String) : String × Bool :=
  if hashlibAttributes.contains name then (name, false) else ("sha3_256", true)

/-- Directory mode of `main`, lines 125 to 147 and onward: validate the directory
    arguments, resolve the hash algorithm, hash every enumerated file through the
    pool, then either print the single listing (exit 0) or compare the two sides.
    `hashOf` gives the digest of the file at a path under a named algorithm, and
    `filesA`, `filesB` are the enumerations of the two directory trees. -/
def mainDirs (hashOf : String → Str → Str) (hashSpec : String)
    (dirAValid dirBProvided dirBValid : Bool) (filesA filesB : List Str) :
    Except Err Nat :=
  if !dirAValid || (dirBProvided && !dirBValid) then Except.ok 1
  else
    let hf := (resolveHashFunc hashSpec).1
    let items := filesA.map (fun p => (Side.a, p)) ++
      (if dirBProvided then filesB.map (fun p => (Side.b, p)) else [])
    let output := runSchedule (hashOf hf) items
    if !dirBProvided then Except.ok 0
    else compareExit output.a output.b

lemma foldl_processItem_b_only (hashOf : Str → Str) (l : List (Side × Str))
    (h : ∀ it ∈ l, it.1 = Side.b) : ∀ st : Output,
    (l.foldl (processItem hashOf) st).a = st.a := by
  induction l with
  | nil => intro st; rfl
  | cons it l ih =>
    intro st
    rw [List.foldl_cons, ih (fun x hx => h x (List.mem_cons_of_mem _ hx))]
    obtain ⟨s, p⟩ := it
    have hb : s = Side.b := h (s, p) (List.mem_cons_self _ _)
    subst hb
    rfl

/-- C5.  On the empty mapping `normalize_paths` fails, because `os.path.commonpath`
    raises `ValueError` on an empty sequence: this is the `NormalizationError` of the
    spec taxonomy.  In a two-directory run whose A side produced no digests the
    failure propagates out of the comparison uncaught, aborting the run. -/
theorem c5_empty_mapping_fatal :
    normalize_paths ([] : List (Str × Str)) = none ∧
    ∀ (hashOf : String → Str → Str) (hashSpec : String) (filesB : List Str),
      mainDirs hashOf hashSpec true true true [] filesB =
        Except.error Err.normalizationError := by
  constructor
  · rfl
  · intro hashOf hashSpec filesB
    show compareExit
        (runSchedule (hashOf (resolveHashFunc hashSpec).1)
          (filesB.map (fun p => (Side.b, p)))).a
        (runSchedule (hashOf (resolveHashFunc hashSpec).1)
          (filesB.map (fun p => (Side.b, p)))).b =
      Except.error Err.normalizationError
    have ha : (runSchedule (hashOf (resolveHashFunc hashSpec).1)
        (filesB.map (fun p => (Side.b, p)))).a = [] := by
      rw [runSchedule]
      exact foldl_processItem_b_only _ _
        (fun it hit => by
          obtain ⟨p, hp, he⟩ := List.mem_map.mp hit
          rw [← he]) ⟨[], []⟩
    rw [ha]
    rfl

/-- C4.  After a completed comparison the exit status is 0 exactly when no mismatched
    digest and no one-sided path was found, and 1 otherwise; invalid directory
    arguments (side A missing, or side B provided but missing) yield exit status 1
    before any hashing. -/
theorem c4_exit_codes :
    (∀ (oa ob : List (Str × Str)) (pa pb : Str) (na nb : List (Str × Str)) (c : Nat),
      normalize_paths oa = some (pa, na) → normalize_paths ob = some (pb, nb) →
      compareExit oa ob = Except.ok c →
      (c = 0 ↔ (compare_hashes na nb).1 = [] ∧ (compare_hashes na nb).2.1 = [] ∧
        (compare_hashes na nb).2.2 = [])) ∧
    (∀ (hashOf : String → Str → Str) (hashSpec : String) (bp bv : Bool)
      (filesA filesB : List Str),
      mainDirs hashOf hashSpec false bp bv filesA filesB = Except.ok 1) ∧
    (∀ (hashOf : String → Str → Str) (hashSpec : String) (filesA filesB : List Str),
      mainDirs hashOf hashSpec true true false filesA filesB = Except.ok 1) := by
  refine ⟨?_, ?_, ?_⟩
  · intro oa ob pa pb na nb c ha hb hc
    unfold compareExit at hc
    rw [ha, hb] at hc
    simp only [Except.ok.injEq] at hc
    cases hr1 : (compare_hashes na nb).1 <;>
      cases hr2 : (compare_hashes na nb).2.1 <;>
        cases hr3 : (compare_hashes na nb).2.2 <;>
          rw [hr1, hr2, hr3] at hc <;> simp at hc <;> subst hc <;>
            simp [hr1, hr2, hr3]
  · intro hashOf hashSpec bp bv filesA filesB
    unfold mainDirs
    rw [if_pos (by simp)]
  · intro hashOf hashSpec filesA filesB
    unfold mainDirs
    rw [if_pos (by simp)]

/-- C9 counterexample.  The name `new` is no digest algorithm — it is not among the
    constructor names of `hashlib` — yet it is an attribute of the module
    (`hashlib.new`), so `getattr` succeeds, the `AttributeError` handler never runs,
    and the run keeps `new` as its hash constructor with no warning and no
    substitution of `sha3_256`.  The workers then call `hashlib.new()` with no
    arguments, which raises `TypeError`, so the run fails instead of proceeding. -/
theorem c9_counterexample :
    hashlibAlgorithms.contains "new" = false ∧
    hashlibAttributes.contains "new" = true ∧
    resolveHashFunc "new" = ("new", false) ∧
    resolveHashFunc "new" ≠ ("sha3_256", true) := by
  refine ⟨by decide, by decide, by decide, by decide⟩

/-- C9 amended.  A requested name that is no attribute of `hashlib` at all is not
    fatal: `getattr` raises `AttributeError`, the handler substitutes the default
    `sha3_256`, fires the warning, and the run proceeds exactly as a run invoked
    with `sha3_256` would. -/
theorem c9_unknown_algorithm (name : String)
    (h : hashlibAttributes.contains name = false) :
    resolveHashFunc name = ("sha3_256", true) ∧
    ∀ (hashOf : String → Str → Str) (av bp bv : Bool) (fa fb : List Str),
      mainDirs hashOf name av bp bv fa fb =
        mainDirs hashOf "sha3_256" av bp bv fa fb := by
  have h1 : resolveHashFunc name = ("sha3_256", true) := by
    unfold resolveHashFunc
    rw [if_neg (by rw [h]; exact Bool.false_ne_true)]
  refine ⟨h1, ?_⟩
  intro hashOf av bp bv fa fb
  unfold mainDirs
  have h2 : (resolveHashFunc name).1 = (resolveHashFunc "sha3_256").1 := by
    rw [h1]
    rfl
  rw [h2]

theorem c9_witness : resolveHashFunc "nope" = ("sha3_256", true) :=
  (c9_unknown_algorithm "nope" (by decide)).1

theorem c4_witness :
    (0 : Nat) = 0 ↔
      (compare_hashes [(([] : Str), ("h").toList)] [(([] : Str), ("h").toList)]).1 = [] ∧
      (compare_hashes [(([] : Str), ("h").toList)] [(([] : Str), ("h").toList)]).2.1 = [] ∧
      (compare_hashes [(([] : Str), ("h").toList)] [(([] : Str), ("h").toList)]).2.2 = [] :=
  c4_exit_codes.1
    [(("/d/a").toList, ("h").toList)] [(("/d/a").toList, ("h").toList)]
    (("/d/a").toList) (("/d/a").toList)
    [(([] : Str), ("h").toList)] [(([] : Str), ("h").toList)] 0
    (by rfl) (by rfl) (by rfl)

/-- Python `sorted` on a list of strings: an ascending stable sort under the
    lexicographic order, modelled by insertion sort with the lexicographic order on
    character lists. -/
def pySorted (l : List Str) : List Str := List.insertionSort (· ≤ ·) l

/-- Lines 161 to 176 of `main`: the report prints three blocks of paths, iterating
    `sorted(bad)`, then `sorted(b_missing)`, then `sorted(a_missing)`. -/
def reportedPaths (an bn : List (Str × Str)) : List Str × List Str × List Str :=
  let r := compare_hashes an bn
  (pySorted r.1, pySorted r.2.2, pySorted r.2.1)

/-- C6.  Every reported block is in ascending lexicographic order of the relative
    path key and holds exactly the paths of the corresponding comparison set; the
    report is a pure function of the two mappings, hence identical across runs on
    the same inputs. -/
theorem c6_sorted_report (an bn : List (Str × Str)) :
    List.Sorted (· ≤ ·) (reportedPaths an bn).1 ∧
    List.Sorted (· ≤ ·) (reportedPaths an bn).2.1 ∧
    List.Sorted (· ≤ ·) (reportedPaths an bn).2.2 ∧
    (reportedPaths an bn).1.Perm (compare_hashes an bn).1 ∧
    (reportedPaths an bn).2.1.Perm (compare_hashes an bn).2.2 ∧
    (reportedPaths an bn).2.2.Perm (compare_hashes an bn).2.1 :=
  ⟨List.sorted_insertionSort _ _, List.sorted_insertionSort _ _,
    List.sorted_insertionSort _ _, List.perm_insertionSort _ _,
    List.perm_insertionSort _ _, List.perm_insertionSort _ _⟩

/-- The read size of `hash_file`: `BLOCKSIZE = 2**16`. -/
def BLOCKSIZE : Nat := 2 ^ 16

/-- The read loop of `hash_file`: the successive `f.read(BLOCKSIZE)` results, a
    partition of the file content into chunks of at most `BLOCKSIZE` bytes; the
    loop body runs once per nonempty read and stops at the first empty one. -/
def chunkedReads (l : List Nat) : List (List Nat) :=
  if h : l = [] then [] else l.take BLOCKSIZE :: chunkedReads (l.drop BLOCKSIZE)
termination_by l.length
decreasing_by
  rw [List.length_drop]
  have h1 : 0 < l.length := List.length_pos.mpr h
  have h2 : 0 < BLOCKSIZE := by norm_num [BLOCKSIZE]
  omega

/-- Function `hash_file` from `cli.py` lines 48 to 65, the `hashlib` hasher modelled
    by its streaming interface: a state type, the fresh state made by `hash_func()`,
    an `update` folding bytes into the state (hashlib documents that one update with
    a concatenation equals successive updates, so `update` consumes one byte at a
    time), and `hexdigest` reading the digest text off the final state.  The file at
    `path` has byte content `content`; the path itself is used only to open the file
    and for the debug log line. -/
def hash_file {σ : Type} (init : σ) (update : σ → Nat → σ) (hexdigest : σ → Str)
    (path : Str) (content : List Nat) : Str :=
  hexdigest ((chunkedReads content).foldl (fun s buf => buf.foldl update s) init)

lemma chunkedReads_foldl {σ : Type} (update : σ → Nat → σ) :
    ∀ (content : List Nat) (init : σ),
      (chunkedReads content).foldl (fun s buf => buf.foldl update s) init =
        content.foldl update init := by
  intro content
  induction content using chunkedReads.induct with
  | case1 => intro init; rw [chunkedReads]; simp
  | case2 l h ih =>
    intro init
    rw [chunkedReads, dif_neg h, List.foldl_cons, ih]
    conv_rhs => rw [← List.take_append_drop BLOCKSIZE l]
    rw [List.foldl_append]

/-- C8.  The digest computed by `hash_file` is a deterministic function of the byte
    content alone: the chunked reads fold exactly the content bytes into the hasher
    state, so the digest equals the digest of the unchunked byte stream, and the
    same content hashed under any two paths yields the identical digest string. -/
theorem c8_hash_deterministic {σ : Type} (init : σ) (update : σ → Nat → σ)
    (hexdigest : σ → Str) (p1 p2 : Str) (content : List Nat) :
    hash_file init update hexdigest p1 content =
      hexdigest (content.foldl update init) ∧
    hash_file init update hexdigest p1 content =
      hash_file init update hexdigest p2 content := by
  constructor
  · rw [hash_file, chunkedReads_foldl]
  · rfl

/-- Python `str.isspace` for the characters `split(None)` breaks on. -/
def pyIsSpace (c : Char) : Bool :=
  c == ' ' || c == '\t' || c == '\n' || c == '\r' || c == '\x0b' || c == '\x0c'

/-- Python `line.strip()`: remove leading and trailing whitespace. -/
def pyStrip (l : Str) : Str :=
  ((l.dropWhile pyIsSpace).reverse.dropWhile pyIsSpace).reverse

/-- Python `s.split(None, 1)`: skip leading whitespace, take the first whitespace-free
    field, then the remainder after the separating whitespace run (kept verbatim);
    at most two fields are produced. -/
def pySplitNone1 (l : Str) : List Str :=
  let l1 := l.dropWhile pyIsSpace
  if l1 = [] then []
  else
    let tok := l1.takeWhile (fun c => !pyIsSpace c)
    let rest := (l1.dropWhile (fun c => !pyIsSpace c)).dropWhile pyIsSpace
    if rest = [] then [tok] else [tok, rest]

/-- One manifest line as read in lines 148 to 155 of `main`:
    `reversed(line.strip().split(None, 1))` yields the `(path, digest)` pair fed to
    `dict`; a line that does not split into exactly two fields makes `dict` raise
    `ValueError`, modelled as `none`. -/
def parseManifestLine (line : Str) : Option (Str × Str) :=
  match pySplitNone1 (pyStrip line) with
  | [d, p] => some (p, d)
  | _ => none

/-- Manifest loading in `main`: parse every line of the file into a pair and build
    the dict from the pairs; the first malformed line aborts loading. -/
def loadManifest (lines : List Str) : Option (List (Str × Str)) :=
  match lines.mapM parseManifestLine with
  | some pairs => some (dictOfPairs pairs)
  | none => none

lemma dictGet_dictOfPairs {V : Type} (l : List (Str × V)) (k : Str) :
    dictGet (dictOfPairs l) k =
      ((l.filter (fun kv => kv.1 == k)).getLast?).map Prod.snd := by
  induction l using List.reverseRecOn with
  | nil => rfl
  | append_singleton l x ih =>
    have e : dictOfPairs (l ++ [x]) = dictInsert (dictOfPairs l) x.1 x.2 := by
      unfold dictOfPairs
      rw [List.foldl_append]
      rfl
    rw [e, List.filter_append]
    by_cases hx : (x.1 == k) = true
    · have hk : x.1 = k := beq_iff_eq.mp hx
      subst hk
      rw [dictGet_dictInsert_self]
      have hfx : [x].filter (fun kv => kv.1 == x.1) = [x] := by
        simp [List.filter]
      rw [hfx, List.getLast?_append, List.getLast?_singleton]
      rfl
    · rw [Bool.not_eq_true] at hx
      have hk : k ≠ x.1 := fun h => by
        rw [h, beq_self_eq_true] at hx
        cases hx
      rw [dictGet_dictInsert_ne _ _ _ _ hk, ih]
      have hfx : [x].filter (fun kv => kv.1 == k) = [] := by
        simp [List.filter, hx]
      rw [hfx, List.append_nil]

/-- C10.  A manifest whose lines are all well formed loads without error even when a
    path occurs on several lines, and the digest bound to a path is the one of the
    last line carrying that path: a later line silently overwrites an earlier one. -/
theorem c10_manifest_last_wins (lines : List Str) (pairs : List (Str × Str)) (p : Str)
    (h : lines.mapM parseManifestLine = some pairs) :
    loadManifest lines = some (dictOfPairs pairs) ∧
    dictGet (dictOfPairs pairs) p =
      ((pairs.filter (fun kv => kv.1 == p)).getLast?).map Prod.snd := by
  constructor
  · rw [loadManifest, h]
  · exact dictGet_dictOfPairs pairs p

theorem c10_witness :
    loadManifest [("d1 p").toList, ("d2 p").toList] =
      some (dictOfPairs [(("p").toList, ("d1").toList), (("p").toList, ("d2").toList)]) ∧
    dictGet (dictOfPairs [(("p").toList, ("d1").toList), (("p").toList, ("d2").toList)])
      (("p").toList) = some (("d2").toList) :=
  ⟨(c10_manifest_last_wins
      [("d1 p").toList, ("d2 p").toList]
      [(("p").toList, ("d1").toList), (("p").toList, ("d2").toList)]
      (("p").toList) (by rfl)).1,
    ((c10_manifest_last_wins
      [("d1 p").toList, ("d2 p").toList]
      [(("p").toList, ("d1").toList), (("p").toList, ("d2").toList)]
      (("p").toList) (by rfl)).2).trans (by rfl)⟩

end FolderCompare
